import Mathlib

/-!
Verification of the KidVoice audio core (PCM decoder, speech-synthesis
client, playback engine, waveform renderer, WAV encoder, batch driver)
against its natural-language specification.  The TypeScript source is
shallowly embedded: strings become `List Char`, JS numbers become `ℚ`
(every value manipulated by the embedded code paths is an exact dyadic
rational, so rational arithmetic is faithful), byte buffers become
`List Nat`, and fallible operations return `Except`.
-/

set_option maxHeartbeats 1000000

namespace KidVoice

/-! ## Text cleaning (`generateVoiceover`, geminiService)

The source sanitizes the input text before synthesis:

```js
let cleanText = text
  .replace(/\[[\s\S]*?\]/g, '') // Remove [Visuals]
  .replace(/\([\s\S]*?\)/g, '') // Remove (Notes)
  .replace(/[*_~`]/g, '')       // Remove markdown symbols
  .trim();
cleanText = cleanText.replace(/\s+/g, ' ');
```
-/

/-- The character class `\s` of JavaScript regular expressions (also the
set stripped by `String.prototype.trim`): tab, LF, VT, FF, CR, space,
NBSP, Ogham space mark, the U+2000–U+200A spaces, LS, PS, NNBSP, MMSP,
ideographic space and BOM. -/
def isJsWs (c : Char) : Bool :=
  c = ' ' || c = '\t' || c = '\n' || c = '\x0b' || c = '\x0c' || c = '\r' ||
  c.toNat = 0xa0 || c.toNat = 0x1680 ||
  (0x2000 ≤ c.toNat && c.toNat ≤ 0x200a) ||
  c.toNat = 0x2028 || c.toNat = 0x2029 || c.toNat = 0x202f ||
  c.toNat = 0x205f || c.toNat = 0x3000 || c.toNat = 0xfeff

/-- One pass of `replace(/o[\s\S]*?c/g, '')` for single-character
delimiters `o`, `c`.  The lazy quantifier matches from each unconsumed
occurrence of `o` up to the *first* following `c`; if no `c` follows, the
match attempt fails and the rest of the string is kept verbatim.  The
accumulator `buf` holds the reversed characters consumed since the
pending `o` (it never contains `c`). -/
def stripGo (o c : Char) : List Char → Option (List Char) → List Char
  | [], none => []
  | [], some buf => buf.reverse
  | x :: xs, none =>
    if x = o then stripGo o c xs (some [x]) else x :: stripGo o c xs none
  | x :: xs, some buf =>
    if x = c then stripGo o c xs none else stripGo o c xs (some (x :: buf))

/-- `text.replace(/\[[\s\S]*?\]/g, '')` — strip bracket-delimited spans. -/
def stripBrackets (l : List Char) : List Char := stripGo '[' ']' l none

/-- `text.replace(/\([\s\S]*?\)/g, '')` — strip parenthesis-delimited spans. -/
def stripParens (l : List Char) : List Char := stripGo '(' ')' l none

/-- The backtick character, U+0060. -/
def backquoteChar : Char := Char.ofNat 96

/-- Membership in the character class `[*_~` ++ "`" ++ `]`. -/
def isMdChar (c : Char) : Bool := c = '*' || c = '_' || c = '~' || c = backquoteChar

/-- `text.replace(/[*_~`]/g, '')` — remove markdown marker characters. -/
def removeMd (l : List Char) : List Char := l.filter (fun c => !isMdChar c)

/-- Remove trailing JS-whitespace characters (the tail half of
`String.prototype.trim`). -/
def dropTrailWs : List Char → List Char
  | [] => []
  | x :: xs =>
    if (dropTrailWs xs).isEmpty then (if isJsWs x then [] else [x])
    else x :: dropTrailWs xs

/-- `String.prototype.trim`: drop leading and trailing JS whitespace. -/
def trimChars (l : List Char) : List Char := dropTrailWs (l.dropWhile isJsWs)

/-- `text.replace(/\s+/g, ' ')` — replace every maximal run of JS
whitespace by a single space.  The flag records whether the previous
input character belonged to a run already collapsed. -/
def collapseGo (b : Bool) : List Char → List Char
  | [] => []
  | x :: xs =>
    if isJsWs x then
      (if b then collapseGo true xs else ' ' :: collapseGo true xs)
    else x :: collapseGo false xs

/-- `text.replace(/\s+/g, ' ')` on a whole string. -/
def collapseWs (l : List Char) : List Char := collapseGo false l

/-- The text sanitation pipeline of `generateVoiceover`: strip
`[...]` spans, then `(...)` spans, then markdown markers, then `trim()`,
then collapse whitespace runs to single spaces. -/
def cleanChars (l : List Char) : List Char :=
  collapseWs (trimChars (removeMd (stripParens (stripBrackets l))))

/-- `cleanChars` on `String`. -/
def cleanText (s : String) : String := String.mk (cleanChars s.toList)

/-- C5: before sending text to the backend, `generateVoiceover` strips
bracket-delimited spans, then parenthesis-delimited spans, then markdown
marker characters, then collapses whitespace and trims the ends; in
particular the input `"[Close up] Hi *there*! (whisper)"` cleans to
exactly `"Hi there!"`. -/
theorem cleanText_example :
    cleanText "[Close up] Hi *there*! (whisper)" = "Hi there!" := by
  decide

/-! ## Voice configuration

Modelled from the spec: the `types.ts` module defining the enums is not
among the provided sources; `Gender`, `Accent`, `Tone` and `VoiceConfig`
follow §3 of the spec (the enum display strings follow the UI labels and
prompt text).  No claim below depends on the concrete strings. -/

/-- Modelled from the spec: voice gender enum (GIRL | BOY). -/
inductive Gender | girl | boy
deriving DecidableEq

/-- Modelled from the spec: accent enum (AMERICAN | INDIAN). -/
inductive Accent | american | indian
deriving DecidableEq

/-- Modelled from the spec: tone enum (HAPPY | FRIENDLY | ANGRY | EXCITED | CALM). -/
inductive Tone | happy | friendly | angry | excited | calm
deriving DecidableEq

/-- Modelled from the spec: display string of an accent, as interpolated
into the styled prompt. -/
def Accent.text : Accent → String
  | .american => "American"
  | .indian => "Indian"

/-- Modelled from the spec: display string of a tone, as interpolated
into the styled prompt. -/
def Tone.text : Tone → String
  | .happy => "Happy"
  | .friendly => "Friendly"
  | .angry => "Angry"
  | .excited => "Excited"
  | .calm => "Calm"

/-- Modelled from the spec: the `VoiceConfig` record (§3). -/
structure VoiceConfig where
  gender : Gender
  age : Nat
  accent : Accent
  pitch : ℚ
  tone : Tone

/-! ## Speech-synthesis client (`generateVoiceover`, geminiService)

The remote call, candidate checking, audio extraction and PCM decoding
inside each `try` block are abstracted into a single `backend` function
from the issued prompt text to `Except JsError α`: an attempt succeeds
exactly when the whole block reaches `return audioBuffer`.  A run also
returns the list of prompts actually issued to the backend, so that
"no further attempt is issued" is expressible. -/

/-- A thrown JavaScript error, identified by its message. -/
structure JsError where
  message : String
deriving DecidableEq

/-- `config.gender === Gender.GIRL ? 'Kore' : 'Puck'`. -/
def voiceName (g : Gender) : String :=
  match g with
  | .girl => "Kore"
  | .boy => "Puck"

/-- First prompt variant: full styled prompt embedding accent and tone. -/
def styledPrompt (config : VoiceConfig) (clean : String) : String :=
  "Say with a " ++ config.accent.text ++ " accent and " ++
    config.tone.text ++ " tone: " ++ clean

/-- Second prompt variant: neutral read-aloud instruction. -/
def readAloudPrompt (clean : String) : String :=
  "Read the following text aloud: " ++ clean

/-- The `prompts` array of `generateVoiceover`as built in the source. -/
def promptsFor (config : VoiceConfig) (clean : String) : List String :=
  [styledPrompt config clean, readAloudPrompt clean, clean]

/-- The `for (const promptText of prompts)` retry loop: issue each prompt
in turn, return on the first success, remember the last error; on
exhaustion throw `lastError` (or the fixed message if no attempt ran).
`issued` accumulates the prompts sent so far. -/
def attemptLoop {α : Type} (backend : String → Except JsError α) :
    List String → Option JsError → List String → Except JsError α × List String
  | [], last, issued =>
    (.error ((last).getD ⟨"Voice generation failed after retries."⟩), issued)
  | p :: ps, _last, issued =>
    match backend p with
    | .ok a => (.ok a, issued ++ [p])
    | .error e => attemptLoop backend ps (some e) (issued ++ [p])

/-- `generateVoiceover(text, config)`: clean the text, fail when the
cleaned text is empty (`"Text segment is empty after cleaning."`),
otherwise run the three-variant fallback loop.  Returns the result
together with the trace of prompts issued to the backend. -/
def generateVoiceover {α : Type} (backend : String → Except JsError α)
    (text : String) (config : VoiceConfig) : Except JsError α × List String :=
  let ct := cleanText text
  if ct.length < 1 then
    (.error ⟨"Text segment is empty after cleaning."⟩, [])
  else
    attemptLoop backend (promptsFor config ct) none []

/-- The trace of `attemptLoop` extends `issued` by a prefix of the
remaining prompt list. -/
theorem attemptLoop_trace {α : Type} (backend : String → Except JsError α)
    (ps : List String) (last : Option JsError) (issued : List String) :
    ∃ n, (attemptLoop backend ps last issued).2 = issued ++ ps.take n := by
  induction ps generalizing last issued with
  | nil => exact ⟨0, by simp [attemptLoop]⟩
  | cons p ps ih =>
    cases hb : backend p with
    | ok a => exact ⟨1, by simp [attemptLoop, hb]⟩
    | error e =>
      obtain ⟨n, hn⟩ := ih (some e) (issued ++ [p])
      exact ⟨n + 1, by simp [attemptLoop, hb, hn]⟩

/-- A nonempty string has positive length. -/
theorem String.one_le_length_of_ne_empty {s : String} (h : s ≠ "") :
    1 ≤ s.length := by
  cases s with
  | mk data =>
    cases data with
    | nil => exact absurd rfl h
    | cons c cs => simp [String.length]

/-- C2: `generateVoiceover` tries at most the three prompt variants, in
the strict order styled / read-aloud / cleaned text, and returns the
first success without issuing any further attempt; against a backend
failing the first two variants and succeeding on the third it returns
the third attempt's audio after issuing exactly those three requests. -/
theorem generateVoiceover_fallback_order {α : Type}
    (backend : String → Except JsError α) (text : String)
    (config : VoiceConfig) (e1 e2 : JsError) (a : α)
    (hne : cleanText text ≠ "")
    (h1 : backend (styledPrompt config (cleanText text)) = .error e1)
    (h2 : backend (readAloudPrompt (cleanText text)) = .error e2)
    (h3 : backend (cleanText text) = .ok a) :
    (∀ (g : String → Except JsError α) (t : String) (c : VoiceConfig),
        (generateVoiceover g t c).2 <+: promptsFor c (cleanText t)) ∧
    generateVoiceover backend text config =
      (.ok a, promptsFor config (cleanText text)) := by
  constructor
  · intro g t c
    unfold generateVoiceover
    by_cases hlen : (cleanText t).length < 1
    · simp [hlen]
    · obtain ⟨n, hn⟩ := attemptLoop_trace g (promptsFor c (cleanText t)) none []
      simp only [hlen, if_false, hn, List.nil_append]
      exact List.take_prefix n _
  · have hlen : ¬ (cleanText text).length < 1 := by
      have := String.one_le_length_of_ne_empty hne
      omega
    simp [generateVoiceover, hlen, promptsFor, attemptLoop, h1, h2, h3]

/-- Closed witness for `generateVoiceover_fallback_order`: a concrete
backend succeeding only on the bare cleaned text. -/
def thirdOnlyBackend : String → Except JsError Unit :=
  fun s => if s = "hello" then .ok () else .error ⟨"overloaded"⟩

/-- Concrete voice configuration used by witnesses. -/
def sampleConfig : VoiceConfig :=
  { gender := .girl, age := 8, accent := .indian, pitch := 6/5, tone := .friendly }

theorem generateVoiceover_fallback_order_witness :
    (∀ (g : String → Except JsError Unit) (t : String) (c : VoiceConfig),
        (generateVoiceover g t c).2 <+: promptsFor c (cleanText t)) ∧
    generateVoiceover thirdOnlyBackend "hello" sampleConfig =
      (.ok (), promptsFor sampleConfig (cleanText "hello")) :=
  generateVoiceover_fallback_order thirdOnlyBackend "hello" sampleConfig
    ⟨"overloaded"⟩ ⟨"overloaded"⟩ ()
    (by decide)
    rfl
    rfl
    rfl

/-- C6: when all three prompt attempts fail, `generateVoiceover` fails
and the raised error is exactly the error of the final failed attempt
(the source rethrows `lastError`, so the last underlying cause is what
the caller observes). -/
theorem generateVoiceover_exhaustion {α : Type}
    (backend : String → Except JsError α) (text : String)
    (config : VoiceConfig) (e1 e2 e3 : JsError)
    (hne : cleanText text ≠ "")
    (h1 : backend (styledPrompt config (cleanText text)) = .error e1)
    (h2 : backend (readAloudPrompt (cleanText text)) = .error e2)
    (h3 : backend (cleanText text) = .error e3) :
    generateVoiceover backend text config =
      (.error e3, promptsFor config (cleanText text)) := by
  have hlen : ¬ (cleanText text).length < 1 := by
    have := String.one_le_length_of_ne_empty hne
    omega
  simp [generateVoiceover, hlen, promptsFor, attemptLoop, h1, h2, h3]

/-- Closed witness for `generateVoiceover_exhaustion`: a backend that
always fails. -/
def failingBackend : String → Except JsError Unit :=
  fun s => .error ⟨"quota exceeded on " ++ s⟩

theorem generateVoiceover_exhaustion_witness :
    generateVoiceover failingBackend "hello" sampleConfig =
      (.error ⟨"quota exceeded on hello"⟩,
        promptsFor sampleConfig (cleanText "hello")) :=
  generateVoiceover_exhaustion failingBackend "hello" sampleConfig
    ⟨"quota exceeded on Say with a Indian accent and Friendly tone: hello"⟩
    ⟨"quota exceeded on Read the following text aloud: hello"⟩
    ⟨"quota exceeded on hello"⟩
    (by decide)
    rfl
    rfl
    rfl

/-! ## Playback engine (`AudioPlayer`, VoiceSelector.tsx)

The component's refs (`pausedAtRef`, `startTimeRef`) and the
`isPlaying` state drive position tracking; `audioContext.currentTime`
is the wall clock.  Times and rates are exact rationals. -/

/-- The mutable playback-tracking state of the `AudioPlayer` component:
`pausedAtRef` (logical buffer offset in seconds), `startTimeRef`
(wall-clock anchor recorded at play start), the `isPlaying` flag and
whether `sourceRef.current` holds a source node. -/
structure PlayerState where
  pausedAt : ℚ
  startTime : ℚ
  isPlaying : Bool
  hasSource : Bool
deriving DecidableEq

/-- The freshly-bound state: offset 0, nothing playing, no source. -/
def PlayerState.initial : PlayerState :=
  { pausedAt := 0, startTime := 0, isPlaying := false, hasSource := false }

/-- The scheduling request `source.start(0, offset)` issued by `play()`,
with `source.playbackRate.value = pitch`. -/
structure ScheduledPlayback where
  offset : ℚ
  rate : ℚ
deriving DecidableEq

/-- `play()`: schedule playback from the stored logical offset
(`const offset = pausedAtRef.current; ... source.start(0, offset)`),
record the wall-clock anchor (`startTimeRef.current = currentTime`),
set `isPlaying`. -/
def play (st : PlayerState) (pitch now : ℚ) : PlayerState × ScheduledPlayback :=
  ({ st with startTime := now, isPlaying := true, hasSource := true },
   { offset := st.pausedAt, rate := pitch })

/-- `pause()`: guarded by `sourceRef.current` being non-null; computes
`elapsedRealTime = currentTime - startTimeRef.current` and adds
`elapsedRealTime * pitch` to the stored logical offset, clearing
`isPlaying`. -/
def pause (st : PlayerState) (pitch now : ℚ) : PlayerState :=
  if st.hasSource then
    { st with pausedAt := st.pausedAt + (now - st.startTime) * pitch,
              isPlaying := false }
  else st

/-- C3: from Stopped with logical offset 0, `play` at rate `r` followed
by `pause` after elapsed wall-clock time `t` stores logical offset
`0 + t × r`, and a subsequent `play` schedules playback from exactly
that stored offset. -/
theorem play_pause_offset (st : PlayerState) (r t0 t t1 : ℚ)
    (h0 : st.pausedAt = 0) :
    (pause (play st r t0).1 r (t0 + t)).pausedAt = 0 + t * r ∧
    (play (pause (play st r t0).1 r (t0 + t)) r t1).2.offset = 0 + t * r := by
  have h : (pause (play st r t0).1 r (t0 + t)).pausedAt = 0 + t * r := by
    simp [play, pause, h0]
  exact ⟨h, by simpa [play] using h⟩

theorem play_pause_offset_witness :
    (pause (play PlayerState.initial (6/5) 2).1 (6/5) (2 + 3)).pausedAt
        = 0 + 3 * (6/5) ∧
    (play (pause (play PlayerState.initial (6/5) 2).1 (6/5) (2 + 3))
        (6/5) 10).2.offset = 0 + 3 * (6/5) :=
  play_pause_offset PlayerState.initial (6/5) 2 3 10 rfl

/-! ## Waveform renderer (`AudioPlayer` draw effect, VoiceSelector.tsx)

```js
const step = Math.ceil(data.length / width);
const barWidth = 2;
const gap = 1;
for (let i = 0; i < width; i += (barWidth + gap)) {
  let min = 1.0; let max = -1.0;
  for (let j = 0; j < step; j++) {
    const datum = data[(i * step) + j];
    if (datum < min) min = datum;
    if (datum > max) max = datum;
  }
  const val = Math.max(Math.abs(min), Math.abs(max));
  ...
}
```
-/

/-- `Math.ceil(data.length / width)`.  (For `width = 0` the bar loop is
empty, so the value is irrelevant; 0 is used.) -/
def waveformStep (dataLen width : Nat) : Nat :=
  if width = 0 then 0 else (dataLen + width - 1) / width

/-- The inner min/max window scan.  An out-of-range read
`data[(i*step)+j]` yields `undefined`, and both comparisons against
`undefined` are false, leaving min/max unchanged. -/
def windowMinMax (data : List ℚ) (base : Nat) (step : Nat) : ℚ × ℚ :=
  (List.range step).foldl
    (fun mm j =>
      match data.get? (base + j) with
      | some d => (if d < mm.1 then d else mm.1, if d > mm.2 then d else mm.2)
      | none => mm)
    ((1 : ℚ), (-1 : ℚ))

/-- The magnitude of the bar starting at pixel `i`:
`Math.max(Math.abs(min), Math.abs(max))`. -/
def barVal (data : List ℚ) (step i : Nat) : ℚ :=
  let mm := windowMinMax data (i * step) step
  max |mm.1| |mm.2|

/-- The list of bar magnitudes produced by the drawing loop: one bar per
`i = 0, 3, 6, …` below `width` (the loop steps by `barWidth + gap = 3`). -/
def renderWaveform (data : List ℚ) (width : Nat) : List ℚ :=
  ((List.range width).filter (fun i => i % 3 == 0)).map
    (fun i => barVal data (waveformStep data.length width) i)

/-- C8 counterexample: the renderer does not produce one magnitude per
pixel of width — at width 6 with a single-sample buffer it produces 2
bars, not 6 — and zero-length audio yields full-magnitude bars, not
empty output. -/
theorem renderWaveform_width_cex :
    (renderWaveform [(0 : ℚ)] 6).length ≠ 6 ∧
    renderWaveform ([] : List ℚ) 6 ≠ [] := by
  constructor
  · decide
  · decide

/-- The count of multiples of 3 below `w` is `⌈w/3⌉ = (w+2)/3`. -/
theorem length_filter_mod3 (w : Nat) :
    ((List.range w).filter (fun i => i % 3 == 0)).length = (w + 2) / 3 := by
  induction w with
  | zero => decide
  | succ n ih =>
    rw [List.range_succ, List.filter_append, List.length_append, ih]
    by_cases h : n % 3 = 0
    · simp [List.filter, h]
      omega
    · have : (n % 3 == 0) = false := by
        simp [h]
      simp [List.filter, this]
      omega

/-- A fold preserves any invariant its step preserves. -/
theorem foldl_preserve {α β : Type} (P : α → Prop) (f : α → β → α)
    (l : List β) (init : α) (h0 : P init)
    (hstep : ∀ a b, P a → P (f a b)) : P (l.foldl f init) := by
  induction l generalizing init with
  | nil => exact h0
  | cons b bs ih => exact ih (f init b) (hstep init b h0)

/-- A fold by a step that never moves is the identity. -/
theorem foldl_fixed {α β : Type} (f : α → β → α) (l : List β) (init : α)
    (h : ∀ b, f init b = init) : l.foldl f init = init := by
  induction l with
  | nil => rfl
  | cons b bs ih => rw [List.foldl_cons, h b]; exact ih

/-- The min/max accumulator of the window scan stays inside `[-1, 1]`
when every sample does. -/
theorem windowMinMax_bounds (data : List ℚ)
    (h : ∀ s ∈ data, -1 ≤ s ∧ s ≤ 1) (base step : Nat) :
    -1 ≤ (windowMinMax data base step).1 ∧ (windowMinMax data base step).1 ≤ 1 ∧
    -1 ≤ (windowMinMax data base step).2 ∧ (windowMinMax data base step).2 ≤ 1 := by
  unfold windowMinMax
  apply foldl_preserve
    (P := fun mm : ℚ × ℚ => -1 ≤ mm.1 ∧ mm.1 ≤ 1 ∧ -1 ≤ mm.2 ∧ mm.2 ≤ 1)
  · norm_num
  · intro mm j hmm
    cases hget : data.get? (base + j) with
    | none => simpa [hget] using hmm
    | some d =>
      have hd : -1 ≤ d ∧ d ≤ 1 := h d (List.get?_mem hget)
      obtain ⟨a1, a2, a3, a4⟩ := hmm
      simp only [hget]
      refine ⟨?_, ?_, ?_, ?_⟩ <;> dsimp only <;> split <;>
        first
          | exact hd.1
          | exact hd.2
          | exact a1
          | exact a2
          | exact a3
          | exact a4

/-- C8 (amended): the drawing loop steps by `barWidth + gap = 3`, so the
renderer produces exactly `⌈width/3⌉ = (width+2)/3` magnitude values;
each value lies in `[0, 1]` whenever every sample does; and for
zero-length audio every produced value is the full magnitude 1 (the
min/max seeds are never updated), not empty output. -/
theorem renderWaveform_bars (data : List ℚ) (width : Nat)
    (h : ∀ s ∈ data, -1 ≤ s ∧ s ≤ 1) :
    (renderWaveform data width).length = (width + 2) / 3 ∧
    (∀ b ∈ renderWaveform data width, 0 ≤ b ∧ b ≤ 1) ∧
    (data = [] → ∀ b ∈ renderWaveform data width, b = 1) := by
  refine ⟨?_, ?_, ?_⟩
  · rw [renderWaveform, List.length_map, length_filter_mod3]
  · intro b hb
    rw [renderWaveform] at hb
    obtain ⟨i, _, rfl⟩ := List.mem_map.mp hb
    obtain ⟨b1, b2, b3, b4⟩ :=
      windowMinMax_bounds data h (i * waveformStep data.length width)
        (waveformStep data.length width)
    rw [barVal]
    constructor
    · exact le_max_of_le_left (abs_nonneg _)
    · exact max_le (abs_le.mpr ⟨by linarith, b2⟩) (abs_le.mpr ⟨by linarith, b4⟩)
  · intro hdata b hb
    subst hdata
    rw [renderWaveform] at hb
    obtain ⟨i, _, rfl⟩ := List.mem_map.mp hb
    have hmm : windowMinMax ([] : List ℚ)
        (i * waveformStep ([] : List ℚ).length width)
        (waveformStep ([] : List ℚ).length width) = (1, -1) := by
      unfold windowMinMax
      exact foldl_fixed _ _ _ (fun j => by simp)
    rw [barVal, hmm]
    norm_num

theorem renderWaveform_bars_witness :
    (renderWaveform [(1 : ℚ)/2] 4).length = (4 + 2) / 3 ∧
    (∀ b ∈ renderWaveform [(1 : ℚ)/2] 4, 0 ≤ b ∧ b ≤ 1) ∧
    (([(1 : ℚ)/2] : List ℚ) = [] → ∀ b ∈ renderWaveform [(1 : ℚ)/2] 4, b = 1) :=
  renderWaveform_bars [(1 : ℚ)/2] 4 (by norm_num)

/-! ## Scene batch driver (`handleGenerateScenes`, App)

```js
for (let i = 0; i < newSegments.length; i++) {
    ...status: 'generating'...
    try {
        const buffer = await generateVoiceover(segment.text, config);
        ...status: 'completed', audioBuffer: buffer...
        if (i === 0) setAudioBuffer(buffer);
    } catch (err) {
        ...status: 'error'...
    }
}
```

The synthesis outcome of the `i`-th call on a given segment text is
abstracted as an oracle `synth : Nat → String → Except JsError α`. -/

/-- Final synthesis status of a scene segment. -/
inductive SegStatus
  | idle
  | generating
  | completed
  | error
deriving DecidableEq

/-- The sequential loop body of `handleGenerateScenes`, started at
segment index `i` with currently displayed audio `display`.  Returns
each segment's final (status, audio buffer) and the final displayed
`audioBuffer`.  A failed call is caught (status `error`) and iteration
continues; only iteration `i === 0` assigns the displayed buffer. -/
def sceneLoopGo {α : Type} (synth : Nat → String → Except JsError α) :
    Nat → List String → Option α → List (SegStatus × Option α) × Option α
  | _, [], display => ([], display)
  | i, t :: ts, display =>
    match synth i t with
    | .ok buf =>
      let display' := if i = 0 then some buf else display
      let r := sceneLoopGo synth (i + 1) ts display'
      ((.completed, some buf) :: r.1, r.2)
    | .error _ =>
      let r := sceneLoopGo synth (i + 1) ts display
      ((.error, none) :: r.1, r.2)

/-- `handleGenerateScenes` after segmentation: run the loop over the
segment texts, with the displayed `audioBuffer` reset to null. -/
def handleGenerateScenes {α : Type} (synth : Nat → String → Except JsError α)
    (texts : List String) : List (SegStatus × Option α) × Option α :=
  sceneLoopGo synth 0 texts none

/-- Once past index 0, the loop never changes the displayed audio. -/
theorem sceneLoopGo_display {α : Type} (synth : Nat → String → Except JsError α)
    (ts : List String) (i : Nat) (hi : 1 ≤ i) (d : Option α) :
    (sceneLoopGo synth i ts d).2 = d := by
  induction ts generalizing i d with
  | nil => rfl
  | cons t ts ih =>
    have hne : i ≠ 0 := by omega
    cases hs : synth i t with
    | ok buf => simp [sceneLoopGo, hs, hne, ih (i + 1) (by omega)]
    | error e => simp [sceneLoopGo, hs, ih (i + 1) (by omega)]

/-- Each segment's final record is decided by its own synthesis call
alone. -/
theorem sceneLoopGo_status {α : Type} (synth : Nat → String → Except JsError α)
    (ts : List String) (i : Nat) (d : Option α) (k : Nat) :
    (sceneLoopGo synth i ts d).1.get? k =
      (ts.get? k).map (fun t =>
        match synth (i + k) t with
        | .ok a => (SegStatus.completed, some a)
        | .error _ => (SegStatus.error, none)) := by
  induction ts generalizing i d k with
  | nil => simp [sceneLoopGo]
  | cons t ts ih =>
    cases k with
    | zero =>
      cases hs : synth i t with
      | ok buf => simp [sceneLoopGo, hs]
      | error e => simp [sceneLoopGo, hs]
    | succ k =>
      cases hs : synth i t with
      | ok buf =>
        simp only [sceneLoopGo, hs, List.get?_cons_succ, ih]
        simp only [Nat.add_comm 1 (i + k), Nat.add_assoc, Nat.add_comm 1 k]
      | error e =>
        simp only [sceneLoopGo, hs, List.get?_cons_succ, ih]
        simp only [Nat.add_comm 1 (i + k), Nat.add_assoc, Nat.add_comm 1 k]

/-- C9 counterexample oracle: segment 0 fails, every later segment
succeeds with audio value 7. -/
def firstFailsSynth : Nat → String → Except JsError Nat :=
  fun i _ => if i = 0 then .error ⟨"network error"⟩ else .ok 7

/-- C9 counterexample: with two segments where the first fails and the
second completes successfully (audio 7), the second segment is still
attempted and completes, yet the displayed audio stays unset — the first
*successfully completed* segment's audio does not become the displayed
audio. -/
theorem handleGenerateScenes_display_cex :
    (handleGenerateScenes firstFailsSynth ["scene one", "scene two"]).1 =
      [(.error, none), (.completed, some 7)] ∧
    (handleGenerateScenes firstFailsSynth ["scene one", "scene two"]).2 ≠
      some 7 := by
  constructor
  · rfl
  · intro hcontra
    simp [handleGenerateScenes, sceneLoopGo, firstFailsSynth] at hcontra

/-- C9 (amended): a synthesis failure on one segment does not halt the
batch — every segment's final record is decided by its own call alone,
with status `completed`/`error` accordingly — but the displayed audio is
assigned only at index 0: it is segment 0's audio when segment 0
succeeds and stays unset otherwise, regardless of later successes. -/
theorem handleGenerateScenes_behavior {α : Type}
    (synth : Nat → String → Except JsError α) (texts : List String) :
    ((handleGenerateScenes synth texts).1.length = texts.length ∧
     ∀ k, (handleGenerateScenes synth texts).1.get? k =
        (texts.get? k).map (fun t =>
          match synth k t with
          | .ok a => (SegStatus.completed, some a)
          | .error _ => (SegStatus.error, none))) ∧
    (handleGenerateScenes synth texts).2 =
      (match texts with
        | [] => none
        | t :: _ =>
          match synth 0 t with
          | .ok a => some a
          | .error _ => none) := by
  refine ⟨⟨?_, ?_⟩, ?_⟩
  · have hlen : ∀ (ts : List String) (i : Nat) (d : Option α),
        (sceneLoopGo synth i ts d).1.length = ts.length := by
      intro ts
      induction ts with
      | nil => intro i d; rfl
      | cons t ts ih =>
        intro i d
        cases hs : synth i t with
        | ok buf => simp [sceneLoopGo, hs, ih]
        | error e => simp [sceneLoopGo, hs, ih]
    exact hlen texts 0 none
  · intro k
    simpa using sceneLoopGo_status synth texts 0 none k
  · cases texts with
    | nil => rfl
    | cons t ts =>
      cases hs : synth 0 t with
      | ok buf =>
        simp [handleGenerateScenes, sceneLoopGo, hs,
          sceneLoopGo_display synth ts 1 (by omega)]
      | error e =>
        simp [handleGenerateScenes, sceneLoopGo, hs,
          sceneLoopGo_display synth ts 1 (by omega)]

/-! ## Audio buffers, WAV encoder (`getWavBlob`, AudioPlayer) and PCM
decoder (`decodeAudioData`, geminiService) -/

/-- An in-memory multi-channel audio buffer (the `AudioBuffer` consumed
and produced by the pipeline): sample rate, frame count
(`buffer.length`) and one float sample array per channel. -/
structure DecodedAudio where
  sampleRate : Nat
  length : Nat
  data : List (List ℚ)
deriving DecidableEq

/-- `buffer.numberOfChannels`. -/
def DecodedAudio.numberOfChannels (a : DecodedAudio) : Nat := a.data.length

/-- Well-formedness inherited from `AudioBuffer`: every channel array
holds exactly `length` samples. -/
def DecodedAudio.WF (a : DecodedAudio) : Prop :=
  ∀ ch ∈ a.data, ch.length = a.length

/-- `x | 0` applied to a JS number in int32 range: truncation toward
zero. -/
def truncToZero (q : ℚ) : Int := if 0 ≤ q then ⌊q⌋ else ⌈q⌉

/-- The per-sample conversion of `getWavBlob`:

```js
sample = Math.max(-1, Math.min(1, channels[i][pos])); // clamp
sample = (0.5 + sample < 0 ? sample * 32768 : sample * 32767)|0;
```

By JS operator precedence the condition reads `(0.5 + sample) < 0`,
i.e. `sample < -0.5`. -/
def floatTo16 (s : ℚ) : Int :=
  let c := max (-1 : ℚ) (min 1 s)
  if (1 : ℚ)/2 + c < 0 then truncToZero (c * 32768) else truncToZero (c * 32767)

/-- `view.setUint16(pos, v, true)`: two little-endian bytes. -/
def u16LE (n : Nat) : List Nat := [n % 256, (n / 256) % 256]

/-- `view.setUint32(pos, v, true)`: four little-endian bytes. -/
def u32LE (n : Nat) : List Nat :=
  [n % 256, (n / 256) % 256, (n / 65536) % 256, (n / 16777216) % 256]

/-- `view.setInt16(pos, v, true)`: the two's-complement little-endian
bytes of an int16 value. -/
def int16LE (v : Int) : List Nat := u16LE (v % 65536).toNat

/-- The 44-byte RIFF/WAVE header written by `getWavBlob` (with
`length = buffer.length * numOfChan * 2 + 44` as in the source). -/
def wavHeader (a : DecodedAudio) : List Nat :=
  u32LE 0x46464952 ++
  u32LE (a.length * a.numberOfChannels * 2 + 44 - 8) ++
  u32LE 0x45564157 ++
  u32LE 0x20746d66 ++
  u32LE 16 ++
  u16LE 1 ++
  u16LE a.numberOfChannels ++
  u32LE a.sampleRate ++
  u32LE (a.sampleRate * 2 * a.numberOfChannels) ++
  u16LE (a.numberOfChannels * 2) ++
  u16LE 16 ++
  u32LE 0x61746164 ++
  u32LE (a.length * a.numberOfChannels * 2 + 44 - 44)

/-- The interleaved sample data written by `getWavBlob` from byte
offset 44 on: the `while (pos < buffer.length)` loop outermost, the
channel loop innermost, two bytes per sample. -/
def wavData (a : DecodedAudio) : List Nat :=
  (List.range a.length).flatMap (fun pos =>
    (List.range a.numberOfChannels).flatMap (fun i =>
      int16LE (floatTo16 ((a.data.getD i []).getD pos 0))))

/-- `getWavBlob(buffer)`: header followed by interleaved sample data. -/
def getWavBlob (a : DecodedAudio) : List Nat := wavHeader a ++ wavData a

/-- The failure of the decoding path.  The source has no typed errors:
an odd byte length makes the `Int16Array` view constructor throw a
`RangeError`, and `ctx.createBuffer` throws `NotSupportedError` for a
nonpositive channel count or a zero frame count; the spec classifies
these as `MalformedAudioError`. -/
inductive AudioError
  | malformedAudio
deriving DecidableEq

/-- One element of the `Int16Array` view: a signed 16-bit two's-
complement value from two little-endian bytes. -/
def byteToInt16 (b0 b1 : Nat) : Int :=
  let u := b0 % 256 + 256 * (b1 % 256)
  if u < 32768 then (u : Int) else (u : Int) - 65536

/-- The `Int16Array` view over the whole byte buffer. -/
def bytesToInt16s : List Nat → List Int
  | b0 :: b1 :: rest => byteToInt16 b0 b1 :: bytesToInt16s rest
  | _ => []

/-- `decodeAudioData(data, ctx, sampleRate, numChannels)`: view the
bytes as interleaved signed 16-bit little-endian samples, compute
`frameCount = dataInt16.length / numChannels` (the effective frame count
is its floor: `createBuffer` converts the length argument to an integer
and out-of-range writes to the channel arrays are ignored), build one
float array per channel with `channelData[i] = dataInt16[i * numChannels
+ channel] / 32768.0`. -/
def decodeAudioData (bytes : List Nat) (sampleRate : Nat)
    (numChannels : Int) : Except AudioError DecodedAudio :=
  if bytes.length % 2 ≠ 0 then .error .malformedAudio
  else if numChannels ≤ 0 then .error .malformedAudio
  else
    let dataInt16 := bytesToInt16s bytes
    let numCh := numChannels.toNat
    let frameCount := dataInt16.length / numCh
    if frameCount = 0 then .error .malformedAudio
    else
      .ok { sampleRate := sampleRate
            length := frameCount
            data := (List.range numCh).map (fun channel =>
              (List.range frameCount).map (fun i =>
                ((dataInt16.getD (i * numCh + channel) 0 : Int) : ℚ) / 32768)) }

/-- C7: on every input whose byte length is odd and on every channel
count ≤ 0 the decoder fails with the malformed-audio error (the spec's
`MalformedAudioError`), never succeeding and raising no other kind of
outcome. -/
theorem decodeAudioData_malformed (bytes : List Nat) (sampleRate : Nat)
    (numChannels : Int)
    (h : bytes.length % 2 ≠ 0 ∨ numChannels ≤ 0) :
    decodeAudioData bytes sampleRate numChannels =
      .error .malformedAudio := by
  rcases h with h | h
  · simp [decodeAudioData, h]
  · by_cases hp : bytes.length % 2 ≠ 0
    · simp [decodeAudioData, hp]
    · simp [decodeAudioData, hp, h]

theorem decodeAudioData_malformed_witness :
    ((([1, 2, 3] : List Nat).length % 2 ≠ 0 ∨ (1 : Int) ≤ 0) ∧
      decodeAudioData [1, 2, 3] 24000 1 = .error .malformedAudio) ∧
    ((([1, 2] : List Nat).length % 2 ≠ 0 ∨ (0 : Int) ≤ 0) ∧
      decodeAudioData [1, 2] 24000 0 = .error .malformedAudio) :=
  ⟨⟨Or.inl (by decide),
    decodeAudioData_malformed [1, 2, 3] 24000 1 (Or.inl (by decide))⟩,
   ⟨Or.inr (by decide),
    decodeAudioData_malformed [1, 2] 24000 0 (Or.inr (by decide))⟩⟩

/-- The conversion prescribed by the spec's words for C4: clamp to
`[-1, 1]`, then scale by 32767 when the clamped value is ≥ 0 and by
32768 when it is negative. -/
def specFloatTo16 (s : ℚ) : Int :=
  let c := max (-1 : ℚ) (min 1 s)
  if 0 ≤ c then truncToZero (c * 32767) else truncToZero (c * 32768)

/-- C4 counterexample: at sample `-1/4` — negative, so per the claim
scaled by 32768 giving exactly `-8192` — the encoder produces `-8191`:
its branch condition is `(0.5 + sample) < 0`, i.e. `sample < -0.5`, not
`sample < 0`, so `-1/4` is scaled by 32767. -/
theorem floatTo16_threshold_cex :
    floatTo16 (-1/4) = -8191 ∧ specFloatTo16 (-1/4) = -8192 ∧
    ((-1 : ℚ)/4) * 32768 = -8192 ∧
    floatTo16 (-1/4) ≠ specFloatTo16 (-1/4) := by
  have ha : floatTo16 (-1/4) = -8191 := by
    norm_num [floatTo16, truncToZero, min_def, max_def, Int.ceil_eq_iff]
  have hb : specFloatTo16 (-1/4) = -8192 := by
    norm_num [specFloatTo16, truncToZero, min_def, max_def, Int.ceil_eq_iff]
  refine ⟨ha, hb, by norm_num, ?_⟩
  rw [ha, hb]
  decide

/-- The conversion the encoder actually performs (amended C4): clamp,
scale by 32768 exactly when the clamped value is below `-1/2` and by
32767 otherwise, truncating toward zero. -/
def amendedFloatTo16 (s : ℚ) : Int :=
  let c := max (-1 : ℚ) (min 1 s)
  if c < -(1/2) then truncToZero (c * 32768) else truncToZero (c * 32767)

/-- `truncToZero` is bounded below by any integer lower bound of its
argument. -/
theorem le_truncToZero {q : ℚ} {n : Int} (h : (n : ℚ) ≤ q) :
    n ≤ truncToZero q := by
  unfold truncToZero
  split
  · exact Int.le_floor.mpr h
  · calc n = ⌈(n : ℚ)⌉ := (Int.ceil_intCast n).symm
      _ ≤ ⌈q⌉ := Int.ceil_le_ceil h

/-- `truncToZero` is bounded above by any integer upper bound of its
argument. -/
theorem truncToZero_le {q : ℚ} {n : Int} (h : q ≤ (n : ℚ)) :
    truncToZero q ≤ n := by
  unfold truncToZero
  split
  · calc ⌊q⌋ ≤ ⌊(n : ℚ)⌋ := Int.floor_le_floor h
      _ = n := Int.floor_intCast n
  · exact Int.ceil_le.mpr h

/-- The clamped sample lies in `[-1, 1]`. -/
theorem clamp_bounds (s : ℚ) :
    -1 ≤ max (-1 : ℚ) (min 1 s) ∧ max (-1 : ℚ) (min 1 s) ≤ 1 :=
  ⟨le_max_left _ _, max_le (by norm_num) (min_le_left _ _)⟩

/-- The encoder's branch condition `0.5 + c < 0` is the amended
condition `c < -1/2`, so the two conversions agree everywhere. -/
theorem floatTo16_eq_amended (s : ℚ) : floatTo16 s = amendedFloatTo16 s := by
  unfold floatTo16 amendedFloatTo16
  have h : ((1 : ℚ)/2 + max (-1 : ℚ) (min 1 s) < 0) ↔
      (max (-1 : ℚ) (min 1 s) < -(1/2)) := by
    constructor <;> intro <;> linarith
  simp only [h]

/-- The converted value always fits in a signed 16-bit integer. -/
theorem floatTo16_range (s : ℚ) :
    -32768 ≤ floatTo16 s ∧ floatTo16 s ≤ 32767 := by
  obtain ⟨h1, h2⟩ := clamp_bounds s
  simp only [floatTo16]
  by_cases hc : (1 : ℚ)/2 + max (-1 : ℚ) (min 1 s) < 0
  · simp only [if_pos hc]
    constructor
    · exact le_truncToZero (by push_cast; nlinarith)
    · have hq : max (-1 : ℚ) (min 1 s) * 32768 ≤ ((0 : Int) : ℚ) := by
        push_cast
        nlinarith
      exact (truncToZero_le hq).trans (by norm_num)
  · simp only [if_neg hc]
    constructor
    · exact le_truncToZero (by push_cast; nlinarith)
    · exact truncToZero_le (by push_cast; nlinarith)

/-- The sequence of converted int16 sample values, in the order the
encoder writes them (frames outermost, channels innermost). -/
def sampleSeq (a : DecodedAudio) : List Int :=
  (List.range a.length).flatMap (fun pos =>
    (List.range a.numberOfChannels).map (fun i =>
      floatTo16 ((a.data.getD i []).getD pos 0)))

/-- The data section is the two-byte little-endian serialization of the
converted sample sequence. -/
theorem wavData_eq (a : DecodedAudio) :
    wavData a = (sampleSeq a).flatMap int16LE := by
  rw [wavData, sampleSeq, List.flatMap_assoc]
  simp [List.flatMap_map]

/-- The header is exactly 44 bytes. -/
theorem wavHeader_length (a : DecodedAudio) : (wavHeader a).length = 44 := by
  simp [wavHeader, u32LE, u16LE]

/-- A `flatMap` of constant-length pieces has product length. -/
theorem flatMap_length_const {α β : Type} (f : β → List α) (C : Nat)
    (ls : List β) (h : ∀ x ∈ ls, (f x).length = C) :
    (ls.flatMap f).length = ls.length * C := by
  induction ls with
  | nil => simp
  | cons x xs ih =>
    rw [List.flatMap_cons, List.length_append, h x (by simp),
      ih (fun y hy => h y (by simp [hy]))]
    simp [Nat.succ_mul, Nat.add_comm]

/-- Indexing into a `flatMap` of constant-length pieces. -/
theorem flatMap_get?_const {α β : Type} (f : β → List α) (C : Nat)
    (ls : List β) (h : ∀ x ∈ ls, (f x).length = C)
    (p i : Nat) (hi : i < C) :
    (ls.flatMap f).get? (p * C + i) =
      (ls.get? p).bind (fun x => (f x).get? i) := by
  induction ls generalizing p with
  | nil => simp
  | cons x xs ih =>
    have hx : (f x).length = C := h x (by simp)
    cases p with
    | zero =>
      rw [List.flatMap_cons, Nat.zero_mul, Nat.zero_add,
        List.get?_append (by rw [hx]; exact hi)]
      simp
    | succ p =>
      rw [List.flatMap_cons,
        List.get?_append_right (by rw [hx]; nlinarith)]
      have harith : (p + 1) * C + i - (f x).length = p * C + i := by
        rw [hx]
        have : (p + 1) * C = p * C + C := by ring
        omega
      rw [harith, ih (fun y hy => h y (by simp [hy])) p]
      simp

/-- Two bytes at offset `2n` of the serialized sample sequence are the
little-endian bytes of the `n`-th value. -/
theorem flatMap_int16LE_window (vs : List Int) (n : Nat) (hn : n < vs.length) :
    ((vs.flatMap int16LE).drop (2 * n)).take 2 = int16LE (vs.getD n 0) := by
  induction vs generalizing n with
  | nil => simp at hn
  | cons v vs ih =>
    cases n with
    | zero => simp [int16LE, u16LE]
    | succ n =>
      have h2 : 2 * (n + 1) = 2 * n + 1 + 1 := by ring
      rw [List.flatMap_cons, h2]
      show ((int16LE v ++ vs.flatMap int16LE).drop (2 * n + 1 + 1)).take 2 = _
      rw [show int16LE v = [(v % 65536).toNat % 256, ((v % 65536).toNat / 256) % 256]
        from rfl]
      simp only [List.cons_append, List.nil_append, List.drop_succ_cons]
      exact ih n (by simpa using hn)

/-- Every channel of a well-formed buffer has positive length wherever
indexed below `length`; the `n = pos*C + i` write position is in range. -/
theorem samplePos_lt {L C pos i : Nat} (hpos : pos < L) (hi : i < C) :
    pos * C + i < L * C := by
  calc pos * C + i < pos * C + C := by omega
    _ = (pos + 1) * C := by ring
    _ ≤ L * C := Nat.mul_le_mul_right C hpos

/-- The `n`-th converted sample value of the encoder output. -/
theorem sampleSeq_get? (a : DecodedAudio) (pos i : Nat)
    (hpos : pos < a.length) (hi : i < a.numberOfChannels) :
    (sampleSeq a).get? (pos * a.numberOfChannels + i) =
      some (floatTo16 ((a.data.getD i []).getD pos 0)) := by
  rw [sampleSeq,
    flatMap_get?_const _ a.numberOfChannels _ (fun x _ => by simp) pos i hi,
    List.get?_range hpos, Option.some_bind, List.get?_map,
    List.get?_range hi]
  rfl

/-- The length of the converted sample sequence. -/
theorem sampleSeq_length (a : DecodedAudio) :
    (sampleSeq a).length = a.length * a.numberOfChannels := by
  rw [sampleSeq, flatMap_length_const _ a.numberOfChannels _ (fun x _ => by simp)]
  simp

/-- C4 (amended): the encoder clamps each sample to `[-1, 1]`, scales
the clamped value by 32768 when it is below `-1/2` and by 32767
otherwise (not at the claimed threshold 0), truncates toward zero into
the signed 16-bit range, and writes the two little-endian bytes of that
value at the sample's interleaved position in the data chunk. -/
theorem getWavBlob_conversion (a : DecodedAudio) (pos i : Nat)
    (hpos : pos < a.length) (hi : i < a.numberOfChannels) :
    (∀ s : ℚ, floatTo16 s = amendedFloatTo16 s) ∧
    (∀ s : ℚ, -32768 ≤ floatTo16 s ∧ floatTo16 s ≤ 32767) ∧
    ((getWavBlob a).drop (44 + 2 * (pos * a.numberOfChannels + i))).take 2 =
      int16LE (floatTo16 ((a.data.getD i []).getD pos 0)) := by
  refine ⟨floatTo16_eq_amended, floatTo16_range, ?_⟩
  rw [getWavBlob, ← List.drop_drop, ← wavHeader_length a, List.drop_left,
    wavData_eq]
  have hn : pos * a.numberOfChannels + i < (sampleSeq a).length := by
    rw [sampleSeq_length]
    exact samplePos_lt hpos hi
  rw [flatMap_int16LE_window _ _ hn, List.getD_eq_get?,
    sampleSeq_get? a pos i hpos hi]
  rfl

theorem getWavBlob_conversion_witness :
    (∀ s : ℚ, floatTo16 s = amendedFloatTo16 s) ∧
    (∀ s : ℚ, -32768 ≤ floatTo16 s ∧ floatTo16 s ≤ 32767) ∧
    ((getWavBlob { sampleRate := 24000, length := 1, data := [[(-1 : ℚ)/4]] }).drop
        (44 + 2 * (0 * 1 + 0))).take 2 =
      int16LE (floatTo16 ((([[(-1 : ℚ)/4]] : List (List ℚ)).getD 0 []).getD 0 0)) :=
  getWavBlob_conversion
    { sampleRate := 24000, length := 1, data := [[(-1 : ℚ)/4]] }
    0 0 (by decide) (by decide)

/-- Serializing an int16 value to two little-endian bytes and reading it
back through the `Int16Array` view is the identity. -/
theorem bytesToInt16s_flatMap (vs : List Int)
    (h : ∀ v ∈ vs, -32768 ≤ v ∧ v ≤ 32767) :
    bytesToInt16s (vs.flatMap int16LE) = vs := by
  induction vs with
  | nil => rfl
  | cons v vs ih =>
    rw [List.flatMap_cons]
    show byteToInt16 ((v % 65536).toNat % 256) (((v % 65536).toNat / 256) % 256) ::
        bytesToInt16s (vs.flatMap int16LE) = v :: vs
    have hv := h v (by simp)
    congr 1
    · simp only [byteToInt16]
      split <;> omega
    · exact ih (fun w hw => h w (by simp [hw]))

/-- The quantization error of the encoder's conversion on a sample that
is an exact multiple of `1/32768` in `[-1, 1]` (the image of the PCM
decoder) is at most one decoder step. -/
theorem floatTo16_grid (k : Int) (h1 : -32768 ≤ k) (h2 : k ≤ 32768) :
    |((floatTo16 ((k : ℚ)/32768) : Int) : ℚ)/32768 - (k : ℚ)/32768|
      ≤ 1/32768 := by
  have h1Q : (-32768 : ℚ) ≤ (k : ℚ) := by exact_mod_cast h1
  have h2Q : (k : ℚ) ≤ 32768 := by exact_mod_cast h2
  have hc1 : (-1 : ℚ) ≤ (k : ℚ)/32768 := by
    rw [le_div_iff (by norm_num : (0 : ℚ) < 32768)]
    linarith
  have hc2 : (k : ℚ)/32768 ≤ 1 := by
    rw [div_le_one (by norm_num : (0 : ℚ) < 32768)]
    exact h2Q
  have hclamp : max (-1 : ℚ) (min 1 ((k : ℚ)/32768)) = (k : ℚ)/32768 := by
    rw [min_eq_right hc2, max_eq_right hc1]
  simp only [floatTo16, hclamp]
  by_cases hneg : (1 : ℚ)/2 + (k : ℚ)/32768 < 0
  · rw [if_pos hneg, div_mul_cancel₀ _ (by norm_num : (32768 : ℚ) ≠ 0)]
    have htr : truncToZero ((k : ℚ)) = k := by
      unfold truncToZero
      split
      · exact Int.floor_intCast k
      · exact Int.ceil_intCast k
    rw [htr, sub_self, abs_zero]
    norm_num
  · rw [if_neg hneg]
    have hq : (k : ℚ)/32768 * 32767 = ((k : ℚ) * 32767)/32768 := by ring
    rw [hq]
    have hk : (-16384 : ℚ) ≤ (k : ℚ) := by
      push_neg at hneg
      have h' : (-1/2 : ℚ) ≤ (k : ℚ)/32768 := by linarith
      rw [le_div_iff (by norm_num : (0 : ℚ) < 32768)] at h'
      linarith
    rcases lt_trichotomy k 0 with hk0 | hk0 | hk0
    · have hkQ : (k : ℚ) < 0 := by exact_mod_cast hk0
      have hqneg : ¬ (0 : ℚ) ≤ (k : ℚ) * 32767/32768 := by
        push_neg
        apply div_neg_of_neg_of_pos (by nlinarith) (by norm_num)
      have htr : truncToZero ((k : ℚ) * 32767/32768) = k + 1 := by
        unfold truncToZero
        rw [if_neg hqneg, Int.ceil_eq_iff]
        constructor
        · push_cast
          rw [lt_div_iff (by norm_num : (0 : ℚ) < 32768)]
          nlinarith
        · push_cast
          rw [div_le_iff (by norm_num : (0 : ℚ) < 32768)]
          nlinarith
      rw [htr]
      have : ((k + 1 : Int) : ℚ)/32768 - (k : ℚ)/32768 = 1/32768 := by
        push_cast
        ring
      rw [this, abs_of_nonneg (by norm_num)]
    · subst hk0
      norm_num [truncToZero]
    · have hkQ : (0 : ℚ) < (k : ℚ) := by exact_mod_cast hk0
      have hqpos : (0 : ℚ) ≤ (k : ℚ) * 32767/32768 := by positivity
      have htr : truncToZero ((k : ℚ) * 32767/32768) = k - 1 := by
        unfold truncToZero
        rw [if_pos hqpos, Int.floor_eq_iff]
        constructor
        · push_cast
          rw [le_div_iff (by norm_num : (0 : ℚ) < 32768)]
          have h2Q : (k : ℚ) ≤ 32768 := by exact_mod_cast h2
          nlinarith
        · push_cast
          rw [div_lt_iff (by norm_num : (0 : ℚ) < 32768)]
          nlinarith
      rw [htr]
      have : ((k - 1 : Int) : ℚ)/32768 - (k : ℚ)/32768 = -(1/32768) := by
        push_cast
        ring
      rw [this, abs_neg, abs_of_nonneg (by norm_num)]

/-- Every value in the encoder's converted sample sequence fits in a
signed 16-bit integer. -/
theorem sampleSeq_range (a : DecodedAudio) :
    ∀ v ∈ sampleSeq a, -32768 ≤ v ∧ v ≤ 32767 := by
  intro v hv
  rw [sampleSeq] at hv
  obtain ⟨pos, _, hv⟩ := List.mem_flatMap.mp hv
  obtain ⟨i, _, rfl⟩ := List.mem_map.mp hv
  exact floatTo16_range _

/-- An in-bounds `getD` is a member. -/
theorem getD_mem_of_lt {α : Type} (l : List α) (n : Nat) (d : α)
    (h : n < l.length) : l.getD n d ∈ l := by
  rw [List.getD_eq_get?]
  cases hg : l.get? n with
  | none =>
    rw [List.get?_eq_none] at hg
    omega
  | some x => simpa using List.get?_mem hg

/-- `getD` through a `map` over `range`. -/
theorem getD_map_range {α : Type} {f : Nat → α} {n C : Nat} (h : n < C)
    (d : α) : ((List.range C).map f).getD n d = f n := by
  rw [List.getD_eq_get?, List.get?_map, List.get?_range h]
  rfl

/-- The decoder's success path: even byte length, positive channel
count, at least one full frame. -/
theorem decodeAudioData_ok (bytes : List Nat) (sampleRate : Nat) (C : Nat)
    (hC : 1 ≤ C) (hpar : bytes.length % 2 = 0)
    (hframe : (bytesToInt16s bytes).length / C ≠ 0) :
    decodeAudioData bytes sampleRate (C : Int) =
      .ok { sampleRate := sampleRate
            length := (bytesToInt16s bytes).length / C
            data := (List.range C).map (fun channel =>
              (List.range ((bytesToInt16s bytes).length / C)).map (fun i =>
                ((bytesToInt16s bytes).getD (i * C + channel) 0 : ℚ)
                  / 32768)) } := by
  simp only [decodeAudioData, Int.toNat_natCast]
  rw [if_neg (by simp [hpar]), if_neg (by omega), if_neg hframe]

/-- C1 (amended): for every well-formed `DecodedAudio` with at least one
channel and one frame whose samples are exact multiples of `1/32768`
inside `[-1, 1]` — precisely the values the PCM decoder can produce —
decoding the data chunk of the encoder's output at the same sample rate
and channel count succeeds, preserves the frame and channel counts, and
reproduces every sample within `1/32768` (for arbitrary samples in
`[-1, 1]` the error can reach almost `2/32768`, see the
counterexample). -/
theorem wav_roundtrip (a : DecodedAudio) (hwf : a.WF)
    (hch : 1 ≤ a.numberOfChannels) (hlen : 1 ≤ a.length)
    (hgrid : ∀ chd ∈ a.data, ∀ s ∈ chd,
      ∃ k : Int, -32768 ≤ k ∧ k ≤ 32768 ∧ s = (k : ℚ)/32768) :
    ∃ b : DecodedAudio,
      decodeAudioData ((getWavBlob a).drop 44) a.sampleRate
          (a.numberOfChannels : Int) = .ok b ∧
      b.sampleRate = a.sampleRate ∧
      b.length = a.length ∧
      b.numberOfChannels = a.numberOfChannels ∧
      ∀ ch, ch < a.numberOfChannels → ∀ i, i < a.length →
        |(b.data.getD ch []).getD i 0 - (a.data.getD ch []).getD i 0|
          ≤ 1/32768 := by
  have hdrop : (getWavBlob a).drop 44 = (sampleSeq a).flatMap int16LE := by
    rw [getWavBlob, ← wavHeader_length a, List.drop_left, wavData_eq]
  have hd16 : bytesToInt16s ((getWavBlob a).drop 44) = sampleSeq a := by
    rw [hdrop, bytesToInt16s_flatMap _ (sampleSeq_range a)]
  have hbytes : ((getWavBlob a).drop 44).length % 2 = 0 := by
    rw [hdrop, flatMap_length_const int16LE 2 _ (fun v _ => rfl)]
    omega
  have hframes : (bytesToInt16s ((getWavBlob a).drop 44)).length
      / a.numberOfChannels = a.length := by
    rw [hd16, sampleSeq_length, Nat.mul_div_cancel _ (by omega)]
  refine ⟨_, decodeAudioData_ok _ a.sampleRate a.numberOfChannels hch hbytes
    (by rw [hframes]; omega), rfl, hframes,
    by simp [DecodedAudio.numberOfChannels], ?_⟩
  intro ch hch' i hi
  simp only [hd16, hframes]
  rw [getD_map_range hch']
  have hframes2 : (sampleSeq a).length / a.numberOfChannels = a.length := by
    rw [sampleSeq_length, Nat.mul_div_cancel _ (by omega)]
  rw [hframes2, getD_map_range hi]
  have hval : (sampleSeq a).getD (i * a.numberOfChannels + ch) 0 =
      floatTo16 ((a.data.getD ch []).getD i 0) := by
    rw [List.getD_eq_get?, sampleSeq_get? a i ch hi hch']
    rfl
  rw [hval]
  have hchd : a.data.getD ch [] ∈ a.data := getD_mem_of_lt _ _ _ hch'
  have hsm : (a.data.getD ch []).getD i 0 ∈ a.data.getD ch [] := by
    apply getD_mem_of_lt
    rw [hwf _ hchd]
    exact hi
  obtain ⟨k, hk1, hk2, hks⟩ := hgrid _ hchd _ hsm
  rw [hks]
  exact floatTo16_grid k hk1 hk2

/-- Witness buffer for the round trip: one channel, one frame, sample
`-1/2 = -16384/32768`. -/
def gridAudio : DecodedAudio :=
  { sampleRate := 24000, length := 1, data := [[-(1 : ℚ)/2]] }

theorem wav_roundtrip_witness :
    ∃ b : DecodedAudio,
      decodeAudioData ((getWavBlob gridAudio).drop 44) gridAudio.sampleRate
          (gridAudio.numberOfChannels : Int) = .ok b ∧
      b.sampleRate = gridAudio.sampleRate ∧
      b.length = gridAudio.length ∧
      b.numberOfChannels = gridAudio.numberOfChannels ∧
      ∀ ch, ch < gridAudio.numberOfChannels → ∀ i, i < gridAudio.length →
        |(b.data.getD ch []).getD i 0 - (gridAudio.data.getD ch []).getD i 0|
          ≤ 1/32768 :=
  wav_roundtrip gridAudio
    (by intro ch hch; simp [gridAudio] at hch; subst hch; rfl)
    (by norm_num [gridAudio, DecodedAudio.numberOfChannels])
    (by norm_num [gridAudio])
    (by
      intro chd hchd s hs
      simp only [gridAudio, List.mem_singleton] at hchd
      subst hchd
      simp only [List.mem_singleton] at hs
      subst hs
      exact ⟨-16384, by norm_num, by norm_num, by norm_num⟩)

/-- Counterexample buffer for C1 as literally stated: one channel, one
frame, sample `65533/65536` — inside `[-1, 1]` (and exactly
representable as an IEEE double) but not a multiple of `1/32768`. -/
def offGridAudio : DecodedAudio :=
  { sampleRate := 24000, length := 1, data := [[(65533 : ℚ)/65536]] }

/-- C1 counterexample: encoding `offGridAudio` and decoding the data
chunk at the same rate and channel count yields the sample
`32765/32768`, which differs from the original `65533/65536` by
`3/65536 > 1/32768`, refuting the claimed bound for arbitrary samples
in `[-1, 1]`. -/
theorem wav_roundtrip_cex :
    ((-1 : ℚ) ≤ 65533/65536 ∧ (65533 : ℚ)/65536 ≤ 1) ∧
    decodeAudioData ((getWavBlob offGridAudio).drop 44)
        offGridAudio.sampleRate (offGridAudio.numberOfChannels : Int) =
      .ok { sampleRate := 24000, length := 1,
            data := [[(32765 : ℚ)/32768]] } ∧
    ¬ |(32765 : ℚ)/32768 - (65533 : ℚ)/65536| ≤ 1/32768 := by
  refine ⟨⟨by norm_num, by norm_num⟩, ?_, ?_⟩
  · have hv : floatTo16 ((65533 : ℚ)/65536) = 32765 := by
      norm_num [floatTo16, truncToZero, min_def, max_def]
    have hdata : wavData offGridAudio = int16LE 32765 := by
      simp [wavData, offGridAudio, DecodedAudio.numberOfChannels,
        List.range_succ, hv]
    have hdrop : (getWavBlob offGridAudio).drop 44 = int16LE 32765 := by
      rw [getWavBlob, ← wavHeader_length offGridAudio, List.drop_left, hdata]
    have hbytes : int16LE 32765 = [253, 127] := by decide
    have h16 : bytesToInt16s [253, 127] = [(32765 : Int)] := by decide
    rw [hdrop, hbytes]
    have hok := decodeAudioData_ok [253, 127] 24000 1 (by omega)
      (by decide) (by rw [h16]; decide)
    rw [show offGridAudio.sampleRate = 24000 from rfl,
      show (offGridAudio.numberOfChannels : Int) = ((1 : Nat) : Int) from rfl,
      hok]
    congr 1
  · have hdiff : (32765 : ℚ)/32768 - (65533 : ℚ)/65536 = -(3/65536) := by
      norm_num
    rw [hdiff, abs_neg, abs_of_nonneg (by norm_num)]
    norm_num

/-! ## Idempotence of the cleaning pipeline (C10)

The proof shows each of the five stages is the identity on the pipeline's
final output: the bracket/parenthesis strippers leave no
open-before-close pattern (and such patterns cannot be created by the
later character-removing or whitespace-normalizing stages), the markdown
characters are all gone, and the output is whitespace-normalized with
non-whitespace endpoints. -/

/-- Some occurrence of `o` is followed, strictly later, by some `c`:
exactly the condition for `replace(/o[\s\S]*?c/g, '')` to match. -/
def HasPair (o c : Char) : List Char → Prop
  | [] => False
  | x :: xs => (x = o ∧ c ∈ xs) ∨ HasPair o c xs

theorem hasPair_cons_of {o c x : Char} {xs : List Char}
    (h : HasPair o c xs) : HasPair o c (x :: xs) := Or.inr h

/-- A list without `c` has no pair. -/
theorem not_hasPair_of_not_mem {o c : Char} {l : List Char} (h : c ∉ l) :
    ¬ HasPair o c l := by
  induction l with
  | nil => exact fun hf => hf
  | cons x xs ih =>
    intro hp
    rcases hp with ⟨_, hc⟩ | hp
    · exact h (List.mem_cons_of_mem x hc)
    · exact ih (fun hc => h (List.mem_cons_of_mem x hc)) hp

/-- `HasPair` is monotone under sublists. -/
theorem HasPair.of_sublist {o c : Char} {l₁ l₂ : List Char}
    (hs : l₁.Sublist l₂) (h : HasPair o c l₁) : HasPair o c l₂ := by
  induction hs with
  | slnil => exact h
  | cons a _ ih => exact Or.inr (ih h)
  | @cons₂ l₁ l₂ a hsub ih =>
    rcases h with ⟨rfl, hc⟩ | h
    · exact Or.inl ⟨rfl, hsub.subset hc⟩
    · exact Or.inr (ih h)

/-- When no closing delimiter remains, the stripper emits the pending
buffer and the rest verbatim. -/
theorem stripGo_unmatched {o c : Char} :
    ∀ (xs : List Char) (buf : List Char), c ∉ xs →
      stripGo o c xs (some buf) = buf.reverse ++ xs := by
  intro xs
  induction xs with
  | nil => intro buf _; simp [stripGo]
  | cons x xs ih =>
    intro buf hc
    have hxc : ¬ x = c := fun h => hc (h ▸ List.mem_cons_self x xs)
    rw [stripGo, if_neg hxc, ih (x :: buf) (fun h => hc (List.mem_cons_of_mem x h))]
    simp [List.reverse_cons]

/-- The stripper's output never contains an `o` followed by a `c`
(provided `o ≠ c`; the buffer never contains `c`). -/
theorem stripGo_noPair {o c : Char} (hoc : o ≠ c) :
    ∀ (l : List Char) (st : Option (List Char)),
      (st = none ∨ ∃ buf, st = some buf ∧ c ∉ buf) →
      ¬ HasPair o c (stripGo o c l st) := by
  intro l
  induction l with
  | nil =>
    rintro st (rfl | ⟨buf, rfl, hbuf⟩)
    · exact fun hf => hf
    · show ¬ HasPair o c buf.reverse
      exact not_hasPair_of_not_mem (by simpa [List.mem_reverse] using hbuf)
  | cons x xs ih =>
    rintro st (rfl | ⟨buf, rfl, hbuf⟩)
    · by_cases hx : x = o
      · rw [stripGo, if_pos hx]
        exact ih (some [x]) (Or.inr ⟨[x], rfl, by
          simp only [List.mem_singleton]
          exact fun h => hoc (hx ▸ h ▸ rfl)⟩)
      · rw [stripGo, if_neg hx]
        intro hp
        rcases hp with ⟨hxo, _⟩ | hp
        · exact hx hxo
        · exact ih none (Or.inl rfl) hp
    · by_cases hx : x = c
      · rw [stripGo, if_pos hx]
        exact ih none (Or.inl rfl)
      · rw [stripGo, if_neg hx]
        exact ih (some (x :: buf)) (Or.inr ⟨x :: buf, rfl, by
          intro h
          rcases List.mem_cons.mp h with h | h
          · exact hx h.symm
          · exact hbuf h⟩)

/-- On a pair-free input the stripper is the identity. -/
theorem stripGo_fixed {o c : Char} :
    ∀ (l : List Char), ¬ HasPair o c l → stripGo o c l none = l := by
  intro l
  induction l with
  | nil => intro _; rfl
  | cons x xs ih =>
    intro hnp
    by_cases hx : x = o
    · have hc : c ∉ xs := fun hc => hnp (Or.inl ⟨hx, hc⟩)
      rw [stripGo, if_pos hx, stripGo_unmatched xs [x] hc]
      rfl
    · rw [stripGo, if_neg hx, ih (fun hp => hnp (Or.inr hp))]

/-- The stripper's output is a sublist of the pending buffer (reversed)
followed by the input. -/
theorem stripGo_sublist {o c : Char} :
    ∀ (l : List Char),
      (∀ buf, (stripGo o c l (some buf)).Sublist (buf.reverse ++ l)) ∧
      (stripGo o c l none).Sublist l := by
  intro l
  induction l with
  | nil =>
    constructor
    · intro buf
      simp [stripGo]
    · exact List.nil_sublist []
  | cons x xs ih =>
    constructor
    · intro buf
      by_cases hx : x = c
      · rw [stripGo, if_pos hx]
        exact ih.2.trans ((List.sublist_cons_self x xs).trans
          (List.sublist_append_right buf.reverse (x :: xs)))
      · rw [stripGo, if_neg hx]
        have := ih.1 (x :: buf)
        rwa [List.reverse_cons, List.append_assoc, List.singleton_append]
          at this
    · by_cases hx : x = o
      · rw [stripGo, if_pos hx]
        have := ih.1 [x]
        simpa using this
      · rw [stripGo, if_neg hx]
        exact ih.2.cons₂ x

/-- Characters of a collapsed string come from the input or are the
inserted space. -/
theorem mem_collapseGo {y : Char} :
    ∀ (l : List Char) (b : Bool), y ∈ collapseGo b l → y ∈ l ∨ y = ' ' := by
  intro l
  induction l with
  | nil => intro b h; exact absurd h (by simp [collapseGo])
  | cons x xs ih =>
    intro b h
    rw [collapseGo] at h
    by_cases hx : isJsWs x = true
    · rw [if_pos hx] at h
      cases b with
      | true =>
        rcases ih true h with hm | hsp
        · exact Or.inl (List.mem_cons_of_mem x hm)
        · exact Or.inr hsp
      | false =>
        rcases List.mem_cons.mp h with rfl | h
        · exact Or.inr rfl
        · rcases ih true h with hm | hsp
          · exact Or.inl (List.mem_cons_of_mem x hm)
          · exact Or.inr hsp
    · rw [if_neg hx] at h
      rcases List.mem_cons.mp h with rfl | h
      · exact Or.inl (List.mem_cons_self _ _)
      · rcases ih false h with hm | hsp
        · exact Or.inl (List.mem_cons_of_mem x hm)
        · exact Or.inr hsp

/-- Collapsing whitespace cannot create an open-before-close pattern of
non-whitespace delimiters. -/
theorem hasPair_collapseGo {o c : Char} (ho : isJsWs o = false)
    (hc : isJsWs c = false) :
    ∀ (l : List Char) (b : Bool), HasPair o c (collapseGo b l) → HasPair o c l := by
  intro l
  induction l with
  | nil => intro b h; exact h
  | cons x xs ih =>
    intro b h
    rw [collapseGo] at h
    by_cases hx : isJsWs x = true
    · rw [if_pos hx] at h
      cases b with
      | true => exact Or.inr (ih true h)
      | false =>
        rcases h with ⟨hsp, _⟩ | h
        · rw [← hsp] at ho
          exact absurd ho (by simp [isJsWs])
        · exact Or.inr (ih true h)
    · rw [if_neg hx] at h
      rcases h with ⟨hxo, hcm⟩ | h
      · rcases mem_collapseGo xs false hcm with hm | hsp
        · exact Or.inl ⟨hxo, hm⟩
        · rw [hsp] at hc
          exact absurd hc (by simp [isJsWs])
      · exact Or.inr (ih false h)

/-- After skipping a run (`b = true`), the output starts with a
non-whitespace character, if any. -/
theorem collapseGo_true_shape :
    ∀ (l : List Char), collapseGo true l = [] ∨
      ∃ y ys, collapseGo true l = y :: ys ∧ isJsWs y = false := by
  intro l
  induction l with
  | nil => exact Or.inl rfl
  | cons x xs ih =>
    by_cases hx : isJsWs x = true
    · rw [collapseGo, if_pos hx]
      exact ih
    · rw [collapseGo, if_neg hx]
      exact Or.inr ⟨x, _, rfl, by simpa using hx⟩

/-- Whitespace-normalized: every whitespace character is the single
space and no two adjacent characters are both whitespace. -/
def isCollapsed : List Char → Prop
  | [] => True
  | [x] => isJsWs x = true → x = ' '
  | x :: y :: ys =>
    (isJsWs x = true → x = ' ' ∧ isJsWs y = false) ∧ isCollapsed (y :: ys)

/-- The collapsing pass outputs a whitespace-normalized string. -/
theorem isCollapsed_collapseGo :
    ∀ (l : List Char) (b : Bool), isCollapsed (collapseGo b l) := by
  intro l
  induction l with
  | nil => intro b; trivial
  | cons x xs ih =>
    intro b
    by_cases hx : isJsWs x = true
    · rw [collapseGo, if_pos hx]
      cases b with
      | true => exact ih true
      | false =>
        rcases collapseGo_true_shape xs with hnil | ⟨y, ys, heq, hy⟩
        · rw [hnil]
          exact fun _ => rfl
        · rw [heq]
          refine ⟨fun _ => ⟨rfl, hy⟩, ?_⟩
          have h := ih true
          rwa [heq] at h
    · rw [collapseGo, if_neg hx]
      cases hshape : collapseGo false xs with
      | nil => exact fun h => absurd h hx
      | cons z zs =>
        refine ⟨fun h => absurd h hx, ?_⟩
        have h := ih false
        rwa [hshape] at h

/-- The collapsing pass is the identity on a whitespace-normalized
string (for the skipping flag, provided the head is not whitespace). -/
theorem collapseGo_fixed_of_isCollapsed :
    ∀ (l : List Char), isCollapsed l →
      collapseGo false l = l ∧
      ((∀ z, l.head? = some z → isJsWs z = false) → collapseGo true l = l) := by
  intro l
  induction l with
  | nil => exact fun _ => ⟨rfl, fun _ => rfl⟩
  | cons x xs ih =>
    intro hcol
    have hxs : isCollapsed xs := by
      cases xs with
      | nil => trivial
      | cons y ys => exact hcol.2
    have hcond : isJsWs x = true →
        x = ' ' ∧ (∀ z, xs.head? = some z → isJsWs z = false) := by
      cases xs with
      | nil =>
        intro h
        exact ⟨hcol h, fun z hz => by simp at hz⟩
      | cons y ys =>
        intro h
        obtain ⟨h1, h2⟩ := hcol.1 h
        refine ⟨h1, fun z hz => ?_⟩
        simp only [List.head?_cons, Option.some_inj] at hz
        exact hz ▸ h2
    obtain ⟨ihf, iht⟩ := ih hxs
    constructor
    · by_cases hx : isJsWs x = true
      · obtain ⟨hsp, hhead⟩ := hcond hx
        rw [collapseGo, if_pos hx, iht hhead, hsp]
        rfl
      · rw [collapseGo, if_neg hx, ihf]
    · intro hhead
      have hx : isJsWs x = false := hhead x rfl
      rw [collapseGo, if_neg (by simp [hx]), ihf]

/-- Dropping trailing whitespace yields a sublist. -/
theorem dropTrailWs_sublist : ∀ (l : List Char), (dropTrailWs l).Sublist l := by
  intro l
  induction l with
  | nil => exact List.nil_sublist []
  | cons x xs ih =>
    rw [dropTrailWs]
    by_cases hr : (dropTrailWs xs).isEmpty
    · rw [if_pos hr]
      by_cases hx : isJsWs x = true
      · rw [if_pos hx]
        exact List.nil_sublist _
      · rw [if_neg hx]
        exact (List.nil_sublist xs).cons₂ x
    · rw [if_neg hr]
      exact ih.cons₂ x

/-- The last element surviving `dropTrailWs` is not whitespace. -/
theorem dropTrailWs_getLast :
    ∀ (l : List Char) (y : Char),
      (dropTrailWs l).getLast? = some y → isJsWs y = false := by
  intro l
  induction l with
  | nil => intro y h; exact absurd h (by simp [dropTrailWs])
  | cons x xs ih =>
    intro y h
    rw [dropTrailWs] at h
    by_cases hr : (dropTrailWs xs).isEmpty
    · rw [if_pos hr] at h
      by_cases hx : isJsWs x = true
      · rw [if_pos hx] at h
        exact absurd h (by simp)
      · rw [if_neg hx] at h
        simp only [List.getLast?_singleton, Option.some_inj] at h
        rw [← h]
        simpa using hx
    · rw [if_neg hr] at h
      cases hshape : dropTrailWs xs with
      | nil =>
        rw [hshape] at hr
        simp at hr
      | cons z zs =>
        rw [hshape] at h
        rw [List.getLast?_cons_cons] at h
        exact ih y (by rw [hshape]; exact h)

/-- `dropTrailWs` preserves the head. -/
theorem dropTrailWs_head :
    ∀ (l : List Char) (y : Char),
      (dropTrailWs l).head? = some y → l.head? = some y := by
  intro l
  induction l with
  | nil => intro y h; exact absurd h (by simp [dropTrailWs])
  | cons x xs _ =>
    intro y h
    rw [dropTrailWs] at h
    by_cases hr : (dropTrailWs xs).isEmpty
    · rw [if_pos hr] at h
      by_cases hx : isJsWs x = true
      · rw [if_pos hx] at h
        exact absurd h (by simp)
      · rw [if_neg hx] at h
        simpa using h
    · rw [if_neg hr] at h
      simpa using h

/-- `dropTrailWs` is the identity when the last character is not
whitespace. -/
theorem dropTrailWs_fixed :
    ∀ (l : List Char),
      (∀ y, l.getLast? = some y → isJsWs y = false) → dropTrailWs l = l := by
  intro l
  induction l with
  | nil => intro _; rfl
  | cons x xs ih =>
    intro h
    cases xs with
    | nil =>
      have hx : isJsWs x = false := h x rfl
      rw [dropTrailWs]
      simp [hx, dropTrailWs]
    | cons y ys =>
      have hxs : dropTrailWs (y :: ys) = y :: ys :=
        ih (fun z hz => h z (by rw [List.getLast?_cons_cons]; exact hz))
      rw [dropTrailWs, hxs]
      simp

/-- The head surviving `dropWhile isJsWs` is not whitespace. -/
theorem dropWhile_head :
    ∀ (l : List Char) (y : Char),
      ((l.dropWhile isJsWs).head? = some y) → isJsWs y = false := by
  intro l
  induction l with
  | nil => intro y h; exact absurd h (by simp)
  | cons x xs ih =>
    intro y h
    rw [List.dropWhile_cons] at h
    by_cases hx : isJsWs x = true
    · rw [if_pos hx] at h
      exact ih y h
    · rw [if_neg hx] at h
      simp only [List.head?_cons, Option.some_inj] at h
      rw [← h]
      simpa using hx

/-- `trim()` is the identity on a string with non-whitespace
endpoints. -/
theorem trimChars_fixed (l : List Char)
    (hh : ∀ z, l.head? = some z → isJsWs z = false)
    (hl : ∀ z, l.getLast? = some z → isJsWs z = false) : trimChars l = l := by
  rw [trimChars]
  have hdw : l.dropWhile isJsWs = l := by
    cases l with
    | nil => rfl
    | cons x xs => rw [List.dropWhile_cons, if_neg (by simp [hh x rfl])]
  rw [hdw, dropTrailWs_fixed l hl]

/-- The last element of a list is a member. -/
theorem mem_of_getLast?Some {α : Type} :
    ∀ (l : List α) (y : α), l.getLast? = some y → y ∈ l := by
  intro l
  induction l with
  | nil => intro y h; exact absurd h (by simp)
  | cons x xs ih =>
    intro y h
    cases xs with
    | nil =>
      simp only [List.getLast?_singleton, Option.some_inj] at h
      rw [← h]
      exact List.mem_cons_self x []
    | cons z zs =>
      rw [List.getLast?_cons_cons] at h
      exact List.mem_cons_of_mem x (ih y h)

/-- A string containing a non-whitespace character does not collapse to
the empty string. -/
theorem collapseGo_ne_nil :
    ∀ (l : List Char) (b : Bool) (z : Char), z ∈ l → isJsWs z = false →
      collapseGo b l ≠ [] := by
  intro l
  induction l with
  | nil => intro b z hz _; exact absurd hz (List.not_mem_nil z)
  | cons x xs ih =>
    intro b z hz hzw
    by_cases hx : isJsWs x = true
    · have hzx : z ∈ xs := by
        rcases List.mem_cons.mp hz with rfl | h
        · rw [hx] at hzw
          exact absurd hzw (by simp)
        · exact h
      rw [collapseGo, if_pos hx]
      cases b with
      | true => exact ih true z hzx hzw
      | false => simp
    · rw [collapseGo, if_neg hx]
      simp

/-- Collapsing preserves a non-whitespace final character. -/
theorem collapseGo_getLast :
    ∀ (l : List Char) (b : Bool),
      (∀ z, l.getLast? = some z → isJsWs z = false) →
      ∀ y, (collapseGo b l).getLast? = some y → isJsWs y = false := by
  intro l
  induction l with
  | nil => intro b _ y hy; exact absurd hy (by simp [collapseGo])
  | cons x xs ih =>
    intro b hlast y hy
    cases xs with
    | nil =>
      have hx : isJsWs x = false := hlast x rfl
      rw [collapseGo, if_neg (by simp [hx])] at hy
      simp only [collapseGo, List.getLast?_singleton, Option.some_inj] at hy
      rw [← hy]
      exact hx
    | cons w ws =>
      have hlast' : ∀ z, (w :: ws).getLast? = some z → isJsWs z = false :=
        fun z hz => hlast z (by rw [List.getLast?_cons_cons]; exact hz)
      obtain ⟨t, ht⟩ : ∃ t, (w :: ws).getLast? = some t := by
        cases hcase : (w :: ws).getLast? with
        | none => exact absurd hcase (by simp)
        | some t => exact ⟨t, rfl⟩
      have htw : isJsWs t = false := hlast' t ht
      have htm : t ∈ w :: ws := mem_of_getLast?Some _ t ht
      by_cases hx : isJsWs x = true
      · rw [collapseGo, if_pos hx] at hy
        cases b with
        | true =>
          rw [if_pos rfl] at hy
          exact ih true hlast' y hy
        | false =>
          rw [if_neg (by decide)] at hy
          cases hcg : collapseGo true (w :: ws) with
          | nil => exact absurd hcg (collapseGo_ne_nil (w :: ws) true t htm htw)
          | cons u us =>
            rw [hcg, List.getLast?_cons_cons] at hy
            exact ih true hlast' y (by rw [hcg]; exact hy)
      · rw [collapseGo, if_neg hx] at hy
        cases hcg : collapseGo false (w :: ws) with
        | nil => exact absurd hcg (collapseGo_ne_nil (w :: ws) false t htm htw)
        | cons u us =>
          rw [hcg, List.getLast?_cons_cons] at hy
          exact ih false hlast' y (by rw [hcg]; exact hy)

/-- Collapsing preserves a non-whitespace head. -/
theorem collapseWs_head (l : List Char)
    (hh : ∀ z, l.head? = some z → isJsWs z = false) :
    ∀ y, (collapseWs l).head? = some y → isJsWs y = false := by
  intro y hy
  cases l with
  | nil => exact absurd hy (by simp [collapseWs, collapseGo])
  | cons x xs =>
    have hx : isJsWs x = false := hh x rfl
    rw [collapseWs, collapseGo, if_neg (by simp [hx])] at hy
    simp only [List.head?_cons, Option.some_inj] at hy
    rw [← hy]
    exact hx

/-- C10: the cleaning transformation of `generateVoiceover` (strip
bracket spans, strip parenthesis spans, remove the markdown characters,
trim, collapse whitespace runs) is idempotent at the character level. -/
theorem cleanChars_idem (s : List Char) :
    cleanChars (cleanChars s) = cleanChars s := by
  have hsub4 : (trimChars (removeMd (stripParens (stripBrackets s)))).Sublist
      (removeMd (stripParens (stripBrackets s))) :=
    (dropTrailWs_sublist _).trans (List.dropWhile_sublist _)
  have hsub3 : (removeMd (stripParens (stripBrackets s))).Sublist
      (stripParens (stripBrackets s)) := List.filter_sublist _
  have hsub2 : (stripParens (stripBrackets s)).Sublist (stripBrackets s) :=
    (stripGo_sublist _).2
  have hnb : ¬ HasPair '[' ']' (cleanChars s) := by
    intro hp
    rw [cleanChars, collapseWs] at hp
    have hp4 := hasPair_collapseGo (by decide) (by decide) _ false hp
    exact stripGo_noPair (by decide) s none (Or.inl rfl)
      ((hp4.of_sublist hsub4).of_sublist (hsub3.trans hsub2))
  have hnp : ¬ HasPair '(' ')' (cleanChars s) := by
    intro hp
    rw [cleanChars, collapseWs] at hp
    have hp4 := hasPair_collapseGo (by decide) (by decide) _ false hp
    exact stripGo_noPair (by decide) (stripBrackets s) none (Or.inl rfl)
      ((hp4.of_sublist hsub4).of_sublist hsub3)
  have hmd : ∀ m ∈ cleanChars s, isMdChar m = false := by
    intro m hm
    rw [cleanChars, collapseWs] at hm
    rcases mem_collapseGo _ false hm with hm4 | rfl
    · have hm3 := hsub4.subset hm4
      have := (List.mem_filter.mp hm3).2
      simpa using this
    · decide
  have hhead : ∀ z, (cleanChars s).head? = some z → isJsWs z = false := by
    rw [cleanChars]
    exact collapseWs_head _ (fun z hz => by
      rw [trimChars] at hz
      exact dropWhile_head _ z (dropTrailWs_head _ z hz))
  have hlast : ∀ z, (cleanChars s).getLast? = some z → isJsWs z = false := by
    rw [cleanChars, collapseWs]
    exact collapseGo_getLast _ false (fun z hz => by
      rw [trimChars] at hz
      exact dropTrailWs_getLast _ z hz)
  have hcol : isCollapsed (cleanChars s) := by
    rw [cleanChars, collapseWs]
    exact isCollapsed_collapseGo _ false
  conv_lhs => rw [cleanChars]
  rw [show stripBrackets (cleanChars s) = cleanChars s from stripGo_fixed _ hnb,
    show stripParens (cleanChars s) = cleanChars s from stripGo_fixed _ hnp,
    show removeMd (cleanChars s) = cleanChars s from
      List.filter_eq_self.mpr (fun a ha => by simp [hmd a ha]),
    trimChars_fixed _ hhead hlast, collapseWs]
  exact (collapseGo_fixed_of_isCollapsed _ hcol).1

/-- C10 (string level): applying the cleaning transformation to its own
output returns that output unchanged. -/
theorem cleanText_idem (s : String) :
    cleanText (cleanText s) = cleanText s := by
  simp only [cleanText]
  congr 1
  have h : (String.mk (cleanChars s.toList)).toList = cleanChars s.toList := rfl
  rw [h, cleanChars_idem]

end KidVoice
